import Mathlib

/-!
Shallow embedding of `src/main.rs` of the wtf-cli tool (natural-language to
shell-command translator), together with proofs of the specification claims.

Strings are modelled as Lean `String` / `List Char`; Rust iterator loops are
modelled as structural recursions on the character list.  Fallible code is
modelled with `Option`.  All definitions are executable.
-/

/-- ASCII whitespace predicate matching the characters Rust `str::trim`
removes for the texts handled here (space, tab, newline, carriage return). -/
def isWs (c : Char) : Bool := c = ' ' || c = '\t' || c = '\n' || c = '\r'

/-- Rust `str::trim` on a character list: drop whitespace from both ends. -/
def trimChars (l : List Char) : List Char :=
  ((l.dropWhile isWs).reverse.dropWhile isWs).reverse

/-- Rust `str::trim` at `String` level. -/
def trimStr (s : String) : String := String.mk (trimChars s.data)

/-- The ESC character tested by `strip_ansi_codes` (`'\x1b'`). -/
def escChar : Char := '\x1b'

/-- Embedding of the loop body of `strip_ansi_codes` (main.rs:514-539).
The `Bool` argument is `true` while the loop is inside the inner
"skip until a letter" loop of a CSI sequence, `false` in the outer loop.
In the outer loop, an ESC followed by `[` enters skip mode; an ESC not
followed by `[` is dropped by itself; any other character is kept. -/
def stripAnsiAux : Bool → List Char → List Char
  | true, [] => []
  | true, c :: rest =>
    if c.isAlpha || c = 'm' then stripAnsiAux false rest else stripAnsiAux true rest
  | false, [] => []
  | false, '\x1b' :: '[' :: rest2 => stripAnsiAux true rest2
  | false, '\x1b' :: [] => []
  | false, '\x1b' :: d :: rest2 => stripAnsiAux false (d :: rest2)
  | false, c :: rest => c :: stripAnsiAux false rest

/-- Embedding of `strip_ansi_codes` (main.rs:514-539). -/
def strip_ansi_codes (s : String) : String := String.mk (stripAnsiAux false s.data)

/-- Result of `parse_output` (main.rs:54-57): the struct `CommandResult`. -/
structure CommandResult where
  command : String
  explanation : Option String
  deriving DecidableEq

/-- Rust `str::split_once` for a non-empty separator on character lists:
split at the first occurrence of `sep`, returning the text before it and the
text after it, or `none` when `sep` does not occur. -/
def splitOnce (sep : List Char) : List Char → Option (List Char × List Char)
  | [] => none
  | c :: rest =>
    if sep.isPrefixOf (c :: rest) then some ([], (c :: rest).drop sep.length)
    else
      match splitOnce sep rest with
      | some (a, b) => some (c :: a, b)
      | none => none

/-- The explanation separator token `parse_output` splits on (main.rs:490). -/
def sepChars : List Char := ("###").data

/-- Embedding of `parse_output` (main.rs:489-501): split the raw model text on
the first occurrence of the separator; the left side (trimmed) is the command,
the right side (trimmed) is the explanation; absent separator means the whole
trimmed text is the command and there is no explanation. -/
def parse_output (text : String) : CommandResult :=
  match splitOnce sepChars text.data with
  | some (cmd, expl) => ⟨String.mk (trimChars cmd), some (String.mk (trimChars expl))⟩
  | none => ⟨String.mk (trimChars text.data), none⟩

/-- Fuel-indexed embedding of Rust `str::trim_start_matches`: repeatedly remove
the prefix `pat` while it matches.  Each successful step removes at least one
character (`pat` is non-empty in every use), so `fuel := l.length` steps always
suffice; the fuel only makes the recursion structural. -/
def stripPrefixAllFuel (pat : List Char) : Nat → List Char → List Char
  | 0, l => l
  | fuel + 1, l =>
    if pat ≠ [] ∧ pat.isPrefixOf l then stripPrefixAllFuel pat fuel (l.drop pat.length) else l

/-- Rust `str::trim_start_matches pat` on character lists. -/
def stripPrefixAll (pat l : List Char) : List Char := stripPrefixAllFuel pat l.length l

/-- Fuel-indexed embedding of Rust `str::trim_end_matches`: repeatedly remove
the suffix `pat` while it matches. -/
def stripSuffixAllFuel (pat : List Char) : Nat → List Char → List Char
  | 0, l => l
  | fuel + 1, l =>
    if pat ≠ [] ∧ pat.isSuffixOf l then
      stripSuffixAllFuel pat fuel (l.take (l.length - pat.length))
    else l

/-- Rust `str::trim_end_matches pat` on character lists. -/
def stripSuffixAll (pat l : List Char) : List Char := stripSuffixAllFuel pat l.length l

/-- Embedding of the markdown-fence cleanup applied to every generated command
(main.rs:799-806 in interactive mode, identically main.rs:268-274): trim, strip
repeated leading fence markers, strip repeated trailing fence markers, trim. -/
def cleanCommand (raw : String) : String :=
  let s1 := trimChars raw.data
  let s2 := stripPrefixAll (("```bash").data) s1
  let s3 := stripPrefixAll (("```sh").data) s2
  let s4 := stripPrefixAll (("```").data) s3
  let s5 := stripSuffixAll (("```").data) s4
  String.mk (trimChars s5)

/-- Rust `str::contains` for a string pattern: `needle` occurs as a contiguous
substring of the haystack. -/
def containsSub (needle : List Char) : List Char → Bool
  | [] => needle.isPrefixOf []
  | c :: rest => needle.isPrefixOf (c :: rest) || containsSub needle rest

/-- Embedding of the edit-instruction classification heuristic
(main.rs:854-864): the instruction is a direct replacement command when it
contains a pipe, `&&` or `;`, or starts with one of the listed command names. -/
def looks_like_command (edit_request : String) : Bool :=
  edit_request.data.contains '|'
  || containsSub (("&&").data) edit_request.data
  || edit_request.data.contains ';'
  || (("find").data).isPrefixOf edit_request.data
  || (("grep").data).isPrefixOf edit_request.data
  || (("ls").data).isPrefixOf edit_request.data
  || (("cat").data).isPrefixOf edit_request.data
  || (("curl").data).isPrefixOf edit_request.data
  || (("git").data).isPrefixOf edit_request.data
  || (("docker").data).isPrefixOf edit_request.data
  || (("kubectl").data).isPrefixOf edit_request.data

/-- Outcome of one edit sub-loop iteration before any model call is resolved. -/
inductive EditAction where
  | noChange
  | direct (cmd : String)
  | askModel (editPrompt : String)
  deriving DecidableEq

/-- The prompt built for a natural-language edit (main.rs:875-878). -/
def editPromptFor (finalCommand editReq : String) : String :=
  ("Current command: ") ++ finalCommand ++ ("\n\nUser wants to modify it: ") ++ editReq
  ++ ("\n\nGenerate the modified command. Output ONLY the new command, nothing else.")

/-- Embedding of the edit-instruction handling (main.rs:846-910): the entered
text is trimmed; empty input changes nothing; a direct-looking instruction
replaces the pending command verbatim; otherwise a second model call is made
with `editPromptFor`. -/
def classifyEdit (finalCommand editReq : String) : EditAction :=
  let e := trimStr editReq
  if e = ("") then EditAction.noChange
  else if looks_like_command e then EditAction.direct e
  else EditAction.askModel (editPromptFor finalCommand e)

/-- Embedding of the effect of one edit iteration on the pending command
(main.rs:846-910).  `modelResp` is the raw model text for the natural-language
path (`none` models an `Err` from the provider).  On the natural-language path
the cleaned model output becomes the pending command unless it is empty or the
call failed, in which case the trimmed edit text is used verbatim. -/
def applyEdit (finalCommand editReq : String) (modelResp : Option String) : String :=
  match classifyEdit finalCommand editReq with
  | EditAction.noChange => finalCommand
  | EditAction.direct e => e
  | EditAction.askModel _ =>
    match modelResp with
    | some raw =>
      let nc := cleanCommand raw
      if nc = ("") then trimStr editReq else nc
    | none => trimStr editReq

/-- Decimal digit to its character. -/
def digitToChar : Nat → Char
  | 0 => '0'
  | 1 => '1'
  | 2 => '2'
  | 3 => '3'
  | 4 => '4'
  | 5 => '5'
  | 6 => '6'
  | 7 => '7'
  | 8 => '8'
  | 9 => '9'
  | _ => '?'

/-- Character to decimal digit, if it is one. -/
def charToDigit (c : Char) : Option Nat :=
  if c = '0' then some 0
  else if c = '1' then some 1
  else if c = '2' then some 2
  else if c = '3' then some 3
  else if c = '4' then some 4
  else if c = '5' then some 5
  else if c = '6' then some 6
  else if c = '7' then some 7
  else if c = '8' then some 8
  else if c = '9' then some 9
  else none

/-- Hex digit (0-15) to its lowercase character, as serde_json emits. -/
def hexDigitChar : Nat → Char
  | 10 => 'a'
  | 11 => 'b'
  | 12 => 'c'
  | 13 => 'd'
  | 14 => 'e'
  | 15 => 'f'
  | n => digitToChar n

/-- Character to hex value, if it is a hex digit. -/
def hexVal (c : Char) : Option Nat :=
  match charToDigit c with
  | some d => some d
  | none =>
    if c = 'a' then some 10
    else if c = 'b' then some 11
    else if c = 'c' then some 12
    else if c = 'd' then some 13
    else if c = 'e' then some 14
    else if c = 'f' then some 15
    else if c = 'A' then some 10
    else if c = 'B' then some 11
    else if c = 'C' then some 12
    else if c = 'D' then some 13
    else if c = 'E' then some 14
    else if c = 'F' then some 15
    else none

/-- Little-endian decimal digit characters of `n`; `fuel ≥ n` always suffices
because the argument at least halves each step. -/
def natDigitsRev : Nat → Nat → List Char
  | 0, _ => []
  | fuel + 1, n => if n = 0 then [] else digitToChar (n % 10) :: natDigitsRev fuel (n / 10)

/-- Decimal representation of a natural number, as serde_json emits it. -/
def natEncode (n : Nat) : List Char :=
  if n = 0 then (['0']) else (natDigitsRev n n).reverse

/-- Decimal representation of an `i64` value, as serde_json emits it. -/
def intEncode (t : Int) : List Char :=
  if t < 0 then '-' :: natEncode t.natAbs else natEncode t.toNat

/-- Take the maximal run of decimal digits from the front of `l`. -/
def takeDigits : List Char → List Nat × List Char
  | [] => ([], [])
  | c :: rest =>
    match charToDigit c with
    | some d =>
      let p := takeDigits rest
      (d :: p.1, p.2)
    | none => ([], c :: rest)

/-- Value of a big-endian decimal digit list. -/
def digitsVal (ds : List Nat) : Nat := ds.foldl (fun a d => a * 10 + d) 0

/-- Parse a decimal natural number from the front of `l`. -/
def natDecode (l : List Char) : Option (Nat × List Char) :=
  let p := takeDigits l
  if p.1 = [] then none else some (digitsVal p.1, p.2)

/-- Parse a (possibly negative) decimal integer from the front of `l`,
as the JSON number grammar restricted to integers. -/
def parseInt (l : List Char) : Option (Int × List Char) :=
  match l with
  | [] => none
  | c :: rest =>
    if c = '-' then (natDecode rest).map (fun p => (-(p.1 : Int), p.2))
    else (natDecode (c :: rest)).map (fun p => ((p.1 : Int), p.2))

/-- JSON string escaping of one character, exactly as serde_json emits it:
quote and backslash escaped, the five short control escapes, `\u00XX` for the
remaining control characters, every other character kept verbatim. -/
def escapeChar (c : Char) : List Char :=
  if c = '"' then ('\\' :: ['"'])
  else if c = '\\' then ('\\' :: ['\\'])
  else if c = '\x08' then ('\\' :: ['b'])
  else if c = '\t' then ('\\' :: ['t'])
  else if c = '\n' then ('\\' :: ['n'])
  else if c = '\x0c' then ('\\' :: ['f'])
  else if c = '\r' then ('\\' :: ['r'])
  else if c.toNat < 32 then
    ('\\' :: 'u' :: '0' :: '0' :: hexDigitChar (c.toNat / 16) :: [hexDigitChar (c.toNat % 16)])
  else [c]

/-- JSON string escaping of a character list. -/
def escapeString : List Char → List Char
  | [] => []
  | c :: rest => escapeChar c ++ escapeString rest

/-- JSON short escape decoding. -/
def unescapeChar (e : Char) : Option Char :=
  if e = '"' then some '"'
  else if e = '\\' then some '\\'
  else if e = '/' then some '/'
  else if e = 'b' then some '\x08'
  else if e = 'f' then some '\x0c'
  else if e = 'n' then some '\n'
  else if e = 'r' then some '\r'
  else if e = 't' then some '\t'
  else none

/-- Parse a JSON string body up to and including the closing quote, returning
the decoded characters and the remaining input. -/
def parseStringBody : List Char → Option (List Char × List Char)
  | [] => none
  | c :: rest =>
    if c = '"' then some ([], rest)
    else if c = '\\' then
      match rest with
      | [] => none
      | e :: rest2 =>
        if e = 'u' then
          match rest2 with
          | a :: b :: c2 :: d :: rest3 =>
            (match hexVal a, hexVal b, hexVal c2, hexVal d with
             | some x, some y, some z, some w =>
               (parseStringBody rest3).map
                 (fun p => (Char.ofNat (((x * 16 + y) * 16 + z) * 16 + w) :: p.1, p.2))
             | _, _, _, _ => none)
          | _ => none
        else
          (match unescapeChar e with
           | some c2 => (parseStringBody rest2).map (fun p => (c2 :: p.1, p.2))
           | none => none)
    else (parseStringBody rest).map (fun p => (c :: p.1, p.2))

/-- One persisted history record (main.rs:47-52). -/
structure HistoryEntry where
  timestamp : Int
  prompt : String
  command : String
  deriving DecidableEq

/-- The one-line JSON serialization of a `HistoryEntry`, exactly as
`serde_json::to_string` emits it for the struct (fields in declaration order,
no spaces). -/
def encodeEntry (e : HistoryEntry) : List Char :=
  ("\x7b\"timestamp\":").data ++ intEncode e.timestamp
  ++ ((",\"prompt\":\"").data) ++ escapeString e.prompt.data
  ++ (("\",\"command\":\"").data) ++ escapeString e.command.data
  ++ (("\"\x7d").data)

/-- Consume an exact token from the front of the input. -/
def parseExact (tok l : List Char) : Option (List Char) :=
  if tok.isPrefixOf l then some (l.drop tok.length) else none

/-- Parse one serialized `HistoryEntry` line, in the exact shape
`encodeEntry` emits (the shape `serde_json::from_str` accepts for lines this
program wrote); any other line is rejected, modelling a parse failure. -/
def parseEntry (l : List Char) : Option HistoryEntry :=
  (parseExact (("\x7b\"timestamp\":").data) l).bind fun l1 =>
  (parseInt l1).bind fun tp =>
  (parseExact ((",\"prompt\":\"").data) tp.2).bind fun l3 =>
  (parseStringBody l3).bind fun pp =>
  (parseExact ((",\"command\":\"").data) pp.2).bind fun l5 =>
  (parseStringBody l5).bind fun cp =>
  if cp.2 = (("\x7d").data) then some ⟨tp.1, String.mk pp.1, String.mk cp.1⟩ else none

/-- The entry `append_to_history` builds (main.rs:544-552): both strings are
ANSI-stripped and then trimmed, and the current timestamp is attached. -/
def mkEntry (ts : Int) (prompt command : String) : HistoryEntry :=
  { timestamp := ts
    prompt := trimStr (strip_ansi_codes prompt)
    command := trimStr (strip_ansi_codes command) }

/-- The 1000-entry cap of `append_to_history` (main.rs:566-570): when the line
list exceeds 1000, the oldest excess lines are drained from the front. -/
def truncateTo1000 (lines : List (List Char)) : List (List Char) :=
  if lines.length > 1000 then lines.drop (lines.length - 1000) else lines

/-- Embedding of `append_to_history` (main.rs:541-584) at the level of the
persisted line list: sanitize, serialize, append, truncate to the cap.
`ts` stands for the `Utc::now().timestamp()` read. -/
def append_to_history (ts : Int) (prompt command : String)
    (existing : List (List Char)) : List (List Char) :=
  truncateTo1000 (existing ++ [encodeEntry (mkEntry ts prompt command)])

/-- Embedding of the read-back loop of `show_history` (main.rs:597-601):
parse the persisted lines one by one, silently skipping lines that fail. -/
def parseHistoryLines (lines : List (List Char)) : List HistoryEntry :=
  lines.filterMap parseEntry

/-- The string pushed onto the conversational window per committed turn
(main.rs:939). -/
def renderPair (userText finalCommand : String) : String :=
  ("User: ") ++ userText ++ ("\nAssistant: ") ++ finalCommand

/-- Embedding of the conversational-window update (main.rs:939-942): push,
then remove the oldest entry when the window exceeds 3. -/
def pushWindow (w : List String) (entry : String) : List String :=
  let w2 := w ++ [entry]
  if w2.length > 3 then w2.tail else w2

/-- Embedding of the prompt composition (main.rs:785-790): the raw input when
the window is empty, else a rendered transcript followed by the new request. -/
def composePrompt (w : List String) (input : String) : String :=
  if w.isEmpty then input
  else
    ("Previous conversation:\n") ++ (String.intercalate ("\n") w)
    ++ ("\n\nNew request: ") ++ input

/-- The state mutations of one committed interactive turn. -/
structure CommitResult where
  history : List (List Char)
  window : List String
  finalCommand : String
  deriving DecidableEq

/-- Embedding of the successful-turn path of `run_interactive_mode`
(main.rs:794-944): the model text is fence-cleaned, the history line is
written immediately (main.rs:808-811, before the confirm/edit loop), the edit
sub-loop folds over the edit events to produce the final pending command, and
the `(input, finalCommand)` pair is pushed onto the conversational window
(main.rs:938-942).  Each edit event carries the entered text and, for the
natural-language path, the model response (`none` for a provider error). -/
def turnCommit (history : List (List Char)) (window : List String) (ts : Int)
    (input : String) (modelRaw : String)
    (edits : List (String × Option String)) : CommitResult :=
  let command := cleanCommand modelRaw
  let history2 := append_to_history ts input command history
  let final := edits.foldl (fun fc e => applyEdit fc e.1 e.2) command
  let window2 := pushWindow window (renderPair input final)
  ⟨history2, window2, final⟩

/-- One model-consulting turn of the interactive loop: the input line, the
provider outcome (`none` is an `Err`), the edit events, and the timestamp. -/
inductive TurnEvent where
  | turn (input : String) (model : Option String)
      (edits : List (String × Option String)) (ts : Int)

/-- The mutable session state: persisted history lines and the window. -/
abbrev SessionState := List (List Char) × List String

/-- Embedding of one iteration of the interactive loop for a model-consulting
turn: a provider error (main.rs:946-951) only reports and leaves the state
unchanged; a successful turn commits. -/
def sessionStep (s : SessionState) (ev : TurnEvent) : SessionState :=
  match ev with
  | TurnEvent.turn _ none _ _ => s
  | TurnEvent.turn input (some raw) edits ts =>
    let r := turnCommit s.1 s.2 ts input raw edits
    (r.history, r.window)

/-- The interactive loop over a sequence of turns. -/
def runSession (s : SessionState) (evs : List TurnEvent) : SessionState :=
  evs.foldl sessionStep s

/-- A directory entry name is a dotfile when it starts with a dot. -/
def isDotfile (name : String) : Bool :=
  match name.data with
  | c :: _ => c = '.'
  | [] => false

/-- Lexicographic sort on strings (the order of `LinearOrder String`). -/
def sortStrings (l : List String) : List String := l.insertionSort (fun a b => a ≤ b)

/-- The truncation marker of the Context Harvester. -/
def truncatedMarker : String := ("...(truncated)")

/-- Modelled from the spec: the Context Harvester component (spec §4.2) is
absent from the source tree under src/ — no `harvest` function, directory
listing, or opt-out flag exists in main.rs — so its directory-listing half is
modelled from the spec words: immediate entries of the working directory
(passed here as `entries`), dotfiles excluded, sorted lexicographically,
capped at 50 names with an explicit marker appended when exceeded. -/
def harvestNames (entries : List String) : List String :=
  let visible := entries.filter (fun e => !(isDotfile e))
  let sortedNames := sortStrings visible
  if sortedNames.length > 50 then sortedNames.take 50 ++ [truncatedMarker] else sortedNames

/-- Modelled from the spec: `harvest() -> string`; disabled entirely by the
environment opt-out, in which case it returns the empty string. -/
def harvest (optOut : Bool) (entries : List String) : String :=
  if optOut then ("") else String.intercalate ("\n") (harvestNames entries)

/-- Modelled from the spec: the harvested context is concatenated as free
text appended to the system prompt, never to the user prompt, and only when
non-empty. -/
def enrichPrompts (systemPrompt userPrompt ctx : String) : String × String :=
  if ctx = ("") then (systemPrompt, userPrompt)
  else (systemPrompt ++ ("\n") ++ ctx, userPrompt)

theorem char_ne_esc_of_cases {c : Char} {rest : List Char}
    (h2 : c = '\x1b' → rest = [] → False)
    (h3 : ∀ (d : Char) (rest2 : List Char), c = '\x1b' → rest = d :: rest2 → False) :
    c ≠ '\x1b' := by
  intro hc
  cases rest with
  | nil => exact h2 hc rfl
  | cons d r2 => exact h3 d r2 hc rfl

theorem stripAnsiAux_not_mem_esc : ∀ (b : Bool) (l : List Char), escChar ∉ stripAnsiAux b l := by
  intro b l
  induction b, l using stripAnsiAux.induct with
  | case1 => simp [stripAnsiAux]
  | case2 c rest h ih => simpa [stripAnsiAux, h] using ih
  | case3 c rest h ih => simpa [stripAnsiAux, h] using ih
  | case4 => simp [stripAnsiAux]
  | case5 rest2 ih => simpa [stripAnsiAux] using ih
  | case6 => simp [stripAnsiAux]
  | case7 d rest2 hd ih => simpa [stripAnsiAux, hd] using ih
  | case8 c rest h1 h2 h3 ih =>
    have hc : c ≠ '\x1b' := char_ne_esc_of_cases h2 h3
    have : stripAnsiAux false (c :: rest) = c :: stripAnsiAux false rest := by
      simp [stripAnsiAux, hc]
    rw [this]
    simp only [escChar, List.mem_cons]
    rintro (h | h)
    · exact hc h.symm
    · exact ih h

theorem stripAnsiAux_cons_of_ne_esc {c : Char} (rest : List Char) (hc : c ≠ '\x1b') :
    stripAnsiAux false (c :: rest) = c :: stripAnsiAux false rest := by
  simp [stripAnsiAux, hc]

theorem stripAnsiAux_of_not_mem_esc : ∀ l : List Char, escChar ∉ l → stripAnsiAux false l = l := by
  intro l
  induction l with
  | nil => intro _; rfl
  | cons c rest ih =>
    intro h
    have hc : c ≠ '\x1b' := fun hc => h (by simp [escChar, hc])
    have hr : escChar ∉ rest := fun hr => h (List.mem_cons_of_mem c hr)
    rw [stripAnsiAux_cons_of_ne_esc rest hc, ih hr]

theorem splitOnce_eq_some (sep l : List Char) (i : Nat) (hsep : sep ≠ [])
    (h1 : sep.isPrefixOf (l.drop i))
    (h2 : ∀ j, j < i → ¬ sep.isPrefixOf (l.drop j)) :
    splitOnce sep l = some (l.take i, l.drop (i + sep.length)) := by
  induction l generalizing i with
  | nil =>
    exfalso
    rw [List.drop_nil, List.isPrefixOf_iff_prefix] at h1
    exact hsep (List.prefix_nil.mp h1)
  | cons c rest ih =>
    cases i with
    | zero =>
      rw [List.drop_zero] at h1
      simp [splitOnce, h1]
    | succ i' =>
      have hnot : ¬ sep.isPrefixOf (c :: rest) := by simpa using h2 0 (Nat.succ_pos i')
      have h1' : sep.isPrefixOf (rest.drop i') := by simpa using h1
      have h2' : ∀ j, j < i' → ¬ sep.isPrefixOf (rest.drop j) := fun j hj => by
        simpa using h2 (j + 1) (Nat.succ_lt_succ hj)
      simp only [splitOnce, if_neg hnot, ih i' h1' h2']
      simp [List.take_succ_cons, List.drop_succ_cons, Nat.succ_add]

theorem splitOnce_eq_none (sep l : List Char)
    (h : ∀ j, ¬ sep.isPrefixOf (l.drop j)) : splitOnce sep l = none := by
  induction l with
  | nil => rfl
  | cons c rest ih =>
    have h0 : ¬ sep.isPrefixOf (c :: rest) := by simpa using h 0
    have ih' := ih (fun j => by simpa using h (j + 1))
    rw [List.isPrefixOf_iff_prefix] at h0
    simp [splitOnce, h0, ih']

/-- C4: for every raw text containing the explanation separator `###`,
`parse_output` returns as command the text before the first occurrence
(trimmed) and as explanation the remainder after it (trimmed); for raw text
not containing the separator it returns no explanation and the trimmed text
as command.  The first occurrence is characterized by position `i`: the
separator matches at `i` and at no earlier position. -/
theorem parse_output_spec :
    (∀ (l : List Char) (i : Nat),
      sepChars.isPrefixOf (l.drop i) →
      (∀ j, j < i → ¬ sepChars.isPrefixOf (l.drop j)) →
      parse_output (String.mk l)
        = ⟨String.mk (trimChars (l.take i)), some (String.mk (trimChars (l.drop (i + 3))))⟩)
  ∧ (∀ l : List Char, (∀ j, j < l.length → ¬ sepChars.isPrefixOf (l.drop j)) →
      parse_output (String.mk l) = ⟨String.mk (trimChars l), none⟩) := by
  constructor
  · intro l i h1 h2
    have hsep : sepChars ≠ [] := by decide
    have hlen : sepChars.length = 3 := by decide
    have hs := splitOnce_eq_some sepChars l i hsep h1 h2
    rw [hlen] at hs
    simp [parse_output, hs]
  · intro l h
    have hall : ∀ j, ¬ sepChars.isPrefixOf (l.drop j) := by
      intro j
      by_cases hj : j < l.length
      · exact h j hj
      · have hnil : l.drop j = [] := List.drop_eq_nil_of_le (Nat.le_of_not_lt hj)
        rw [hnil]
        decide
    simp [parse_output, splitOnce_eq_none sepChars l hall]

/-- Witness for C4 at the concrete input `"ls -la ### lists"` (separator at
position 7) and the separator-free input `"pwd"`. -/
theorem parse_output_spec_witness :
    ((sepChars.isPrefixOf ((("ls -la ### lists").data).drop 7)) ∧
      (∀ j, j < 7 → ¬ sepChars.isPrefixOf ((("ls -la ### lists").data).drop j)) ∧
      parse_output (String.mk (("ls -la ### lists").data)) = ⟨("ls -la"), some (("lists"))⟩)
  ∧ ((∀ j, j < (("pwd").data).length → ¬ sepChars.isPrefixOf ((("pwd").data).drop j)) ∧
      parse_output (String.mk (("pwd").data)) = ⟨("pwd"), none⟩) := by
  refine ⟨⟨by decide, by decide, ?_⟩, ⟨by decide, ?_⟩⟩
  · exact (parse_output_spec.1 (("ls -la ### lists").data) 7 (by decide) (by decide)).trans
      (by decide)
  · exact (parse_output_spec.2 (("pwd").data) (by decide)).trans (by decide)

theorem containsSub_iff_infix (needle hay : List Char) :
    containsSub needle hay = true ↔ needle <:+: hay := by
  induction hay with
  | nil => simp [containsSub]
  | cons c rest ih => simp [containsSub, List.infix_cons_iff, ih]

/-- C8: an edit instruction is classified as a direct replacement command
if and only if it contains `|`, `&&` or `;`, or begins with one of
find, grep, ls, cat, curl, git, docker, kubectl; otherwise it is classified
as a natural-language modification that triggers a second model call.
`"find . -size +1G"` classifies as direct replacement and
`"only show top 10"` as natural-language modification. -/
theorem edit_classification_spec :
    (∀ s : String, looks_like_command s = true ↔
      ('|' ∈ s.data ∨ (("&&").data) <:+: s.data ∨ ';' ∈ s.data ∨
        (("find").data) <+: s.data ∨ (("grep").data) <+: s.data ∨ (("ls").data) <+: s.data ∨
        (("cat").data) <+: s.data ∨ (("curl").data) <+: s.data ∨ (("git").data) <+: s.data ∨
        (("docker").data) <+: s.data ∨ (("kubectl").data) <+: s.data))
  ∧ (∀ fc : String,
      classifyEdit fc ("find . -size +1G") = EditAction.direct (("find . -size +1G")))
  ∧ (∀ fc : String, classifyEdit fc ("only show top 10")
      = EditAction.askModel (editPromptFor fc ("only show top 10"))) := by
  refine ⟨?_, ?_, ?_⟩
  · intro s
    unfold looks_like_command
    simp only [Bool.or_eq_true, List.isPrefixOf_iff_prefix, containsSub_iff_infix,
      List.contains, List.elem_iff, decide_eq_true_eq]
    tauto
  · intro fc
    have he : trimStr ("find . -size +1G") = ("find . -size +1G") := by decide
    simp only [classifyEdit, he]
    rw [if_neg (by decide), if_pos (by decide)]
  · intro fc
    have he : trimStr ("only show top 10") = ("only show top 10") := by decide
    simp only [classifyEdit, he]
    rw [if_neg (by decide), if_neg (by decide)]

/-- C10 amended: the direct-command classification indeed tests raw string
prefixes, not whole words: every trimmed edit instruction beginning with the
characters `ls` or `cat` — natural language or not — is classified as a direct
replacement and used verbatim as the new pending command, with no model call;
in particular `"lsof all listening ports"` and `"catch errors too"`.  (The
claim as stated is corrected in one point: its example
`"list the top 10 files"` does not begin with the characters `ls` — the
second character is `i` — so that input is natural-language classified;
see the counterexample theorem.) -/
theorem prefix_classification_is_raw :
    (∀ fc s : String, (("ls").data) <+: (trimStr s).data →
      classifyEdit fc s = EditAction.direct (trimStr s))
  ∧ (∀ fc s : String, (("cat").data) <+: (trimStr s).data →
      classifyEdit fc s = EditAction.direct (trimStr s))
  ∧ (∀ (fc : String) (resp : Option String),
      applyEdit fc ("lsof all listening ports") resp = ("lsof all listening ports"))
  ∧ (∀ (fc : String) (resp : Option String),
      applyEdit fc ("catch errors too") resp = ("catch errors too")) := by
  refine ⟨?_, ?_, ?_, ?_⟩
  · intro fc s h
    have hne : ¬ trimStr s = ("") := by
      intro h0
      rw [h0] at h
      exact absurd (List.prefix_nil.mp h) (by decide)
    have hlk : looks_like_command (trimStr s) = true := by
      unfold looks_like_command
      have hpre : (("ls").data).isPrefixOf (trimStr s).data = true :=
        List.isPrefixOf_iff_prefix.mpr h
      simp [hpre]
    simp [classifyEdit, hne, hlk]
  · intro fc s h
    have hne : ¬ trimStr s = ("") := by
      intro h0
      rw [h0] at h
      exact absurd (List.prefix_nil.mp h) (by decide)
    have hlk : looks_like_command (trimStr s) = true := by
      unfold looks_like_command
      have hpre : (("cat").data).isPrefixOf (trimStr s).data = true :=
        List.isPrefixOf_iff_prefix.mpr h
      simp [hpre]
    simp [classifyEdit, hne, hlk]
  · intro fc resp
    have hc : classifyEdit fc ("lsof all listening ports")
        = EditAction.direct (("lsof all listening ports")) := by
      have he : trimStr ("lsof all listening ports") = ("lsof all listening ports") := by decide
      simp only [classifyEdit, he]
      rw [if_neg (by decide), if_pos (by decide)]
    simp [applyEdit, hc]
  · intro fc resp
    have hc : classifyEdit fc ("catch errors too")
        = EditAction.direct (("catch errors too")) := by
      have he : trimStr ("catch errors too") = ("catch errors too") := by decide
      simp only [classifyEdit, he]
      rw [if_neg (by decide), if_pos (by decide)]
    simp [applyEdit, hc]

/-- Witness for C10: the instruction `"ls -la"` begins with `ls` and is
classified as a direct replacement. -/
theorem prefix_classification_is_raw_witness :
    ((("ls").data) <+: (trimStr ("ls -la")).data) ∧
      classifyEdit ("x") ("ls -la") = EditAction.direct (("ls -la")) := by
  refine ⟨by decide, ?_⟩
  exact (prefix_classification_is_raw.1 ("x") ("ls -la") (by decide)).trans (by decide)

/-- Counterexample to C10 as stated: the input `"list the top 10 files"` does
not begin with the character sequence `ls` (its second character is `i`), so
it is classified as a natural-language modification and triggers a second
model call — it is not used verbatim as the new pending command. -/
theorem prefix_classification_list_cex :
    ¬ ((("ls").data) <+: ("list the top 10 files").data) ∧
      looks_like_command ("list the top 10 files") = false ∧
      classifyEdit ("x") ("list the top 10 files")
        = EditAction.askModel (editPromptFor ("x") ("list the top 10 files")) := by
  refine ⟨by decide, by decide, ?_⟩
  have he : trimStr ("list the top 10 files") = ("list the top 10 files") := by decide
  simp only [classifyEdit, he]
  rw [if_neg (by decide), if_neg (by decide)]

/-- C3: the ANSI-escape stripper is idempotent: for every string `s`,
`strip_ansi_codes (strip_ansi_codes s) = strip_ansi_codes s`.  The stripper
never emits an ESC character, and it is the identity on ESC-free text. -/
theorem strip_ansi_codes_idempotent (s : String) :
    strip_ansi_codes (strip_ansi_codes s) = strip_ansi_codes s := by
  unfold strip_ansi_codes
  exact congrArg String.mk (stripAnsiAux_of_not_mem_esc _ (stripAnsiAux_not_mem_esc false s.data))

theorem parseExact_append (tok rest : List Char) : parseExact tok (tok ++ rest) = some rest := by
  unfold parseExact
  have hpre : tok.isPrefixOf (tok ++ rest) = true :=
    List.isPrefixOf_iff_prefix.mpr ⟨rest, rfl⟩
  rw [if_pos hpre, List.drop_left]

theorem charToDigit_digitToChar : ∀ d, d < 10 → charToDigit (digitToChar d) = some d := by
  decide

theorem hexVal_hexDigitChar : ∀ n, n < 16 → hexVal (hexDigitChar n) = some n := by
  decide

/-- Heads of the fixed tokens that follow a JSON number in an encoded entry
are not digits; expressed on an optional head character. -/
def headNotDigit (l : List Char) : Prop :=
  ∀ c, l.head? = some c → charToDigit c = none

theorem takeDigits_append (ds : List Nat) (rest : List Char)
    (hds : ∀ d ∈ ds, d < 10) (hrest : headNotDigit rest) :
    takeDigits (ds.map digitToChar ++ rest) = (ds, rest) := by
  induction ds with
  | nil =>
    cases rest with
    | nil => rfl
    | cons c r =>
      have hc : charToDigit c = none := hrest c rfl
      simp [takeDigits, hc]
  | cons d ds ih =>
    have hd : d < 10 := hds d (List.mem_cons_self d ds)
    have hds' : ∀ x ∈ ds, x < 10 := fun x hx => hds x (List.mem_cons_of_mem d hx)
    simp [takeDigits, charToDigit_digitToChar d hd, ih hds']

/-- Little-endian value of a digit list. -/
def digitsValRev (ds : List Nat) : Nat := ds.foldr (fun d a => a * 10 + d) 0

theorem digitsVal_reverse (ds : List Nat) : digitsVal ds.reverse = digitsValRev ds := by
  unfold digitsVal digitsValRev
  rw [List.foldl_reverse]

theorem natDigitsRev_spec : ∀ (fuel n : Nat), n ≤ fuel →
    ∃ ds : List Nat, (∀ d ∈ ds, d < 10) ∧ natDigitsRev fuel n = ds.map digitToChar ∧
      digitsValRev ds = n ∧ (n ≠ 0 → ds ≠ []) := by
  intro fuel
  induction fuel with
  | zero =>
    intro n hn
    have : n = 0 := Nat.le_zero.mp hn
    subst this
    exact ⟨[], by simp, rfl, rfl, by simp⟩
  | succ fuel ih =>
    intro n hn
    by_cases h0 : n = 0
    · subst h0
      exact ⟨[], by simp, by simp [natDigitsRev], rfl, by simp⟩
    · have hdiv : n / 10 ≤ fuel := by
        have h1 : n / 10 < n := Nat.div_lt_self (Nat.pos_of_ne_zero h0) (by omega)
        omega
      obtain ⟨ds, hds, heq, hval, _⟩ := ih (n / 10) hdiv
      refine ⟨n % 10 :: ds, ?_, ?_, ?_, ?_⟩
      · intro d hd
        rcases List.mem_cons.mp hd with h | h
        · subst h; exact Nat.mod_lt n (by omega)
        · exact hds d h
      · simp [natDigitsRev, h0, heq]
      · show digitsValRev ds * 10 + n % 10 = n
        rw [hval]
        omega
      · simp

theorem natEncode_spec (n : Nat) :
    ∃ ds : List Nat, (∀ d ∈ ds, d < 10) ∧ ds ≠ [] ∧
      natEncode n = ds.map digitToChar ∧ digitsVal ds = n := by
  by_cases h0 : n = 0
  · subst h0
    exact ⟨[0], by decide, by decide, rfl, rfl⟩
  · obtain ⟨ds, hds, heq, hval, hne⟩ := natDigitsRev_spec n n (Nat.le_refl n)
    refine ⟨ds.reverse, ?_, ?_, ?_, ?_⟩
    · intro d hd
      exact hds d (List.mem_reverse.mp hd)
    · simpa using hne h0
    · rw [natEncode, if_neg h0, heq, List.map_reverse]
    · rw [digitsVal_reverse, hval]

theorem natDecode_encode (n : Nat) (rest : List Char) (hrest : headNotDigit rest) :
    natDecode (natEncode n ++ rest) = some (n, rest) := by
  obtain ⟨ds, hds, hne, heq, hval⟩ := natEncode_spec n
  rw [heq]
  unfold natDecode
  rw [takeDigits_append ds rest hds hrest]
  simp [hne, hval]

theorem digitToChar_ne_minus : ∀ d, d < 10 → digitToChar d ≠ '-' := by decide

theorem parseInt_cons (c : Char) (rest : List Char) :
    parseInt (c :: rest)
      = if c = '-' then (natDecode rest).map (fun p => (-(p.1 : Int), p.2))
        else (natDecode (c :: rest)).map (fun p => ((p.1 : Int), p.2)) := rfl

theorem parseInt_encode (t : Int) (rest : List Char) (hrest : headNotDigit rest) :
    parseInt (intEncode t ++ rest) = some (t, rest) := by
  by_cases hneg : t < 0
  · have henc : intEncode t = '-' :: natEncode t.natAbs := by
      unfold intEncode
      rw [if_pos hneg]
    rw [henc]
    show parseInt ('-' :: (natEncode t.natAbs ++ rest)) = some (t, rest)
    rw [parseInt_cons, if_pos rfl, natDecode_encode t.natAbs rest hrest]
    have habs : -(t.natAbs : Int) = t := by
      rw [Int.ofNat_natAbs_of_nonpos (Int.le_of_lt hneg)]
      omega
    show some (-(t.natAbs : Int), rest) = some (t, rest)
    rw [habs]
  · have henc : intEncode t = natEncode t.toNat := by
      unfold intEncode
      rw [if_neg hneg]
    obtain ⟨ds, hds, hne, heq, hval⟩ := natEncode_spec t.toNat
    obtain ⟨d, ds', rfl⟩ : ∃ d ds', ds = d :: ds' := by
      cases ds with
      | nil => exact absurd rfl hne
      | cons d ds' => exact ⟨d, ds', rfl⟩
    have hd10 : d < 10 := hds d (List.mem_cons_self d ds')
    rw [henc, heq]
    show parseInt (digitToChar d :: (ds'.map digitToChar ++ rest)) = some (t, rest)
    rw [parseInt_cons, if_neg (digitToChar_ne_minus d hd10)]
    have hback : (digitToChar d :: (ds'.map digitToChar ++ rest))
        = natEncode t.toNat ++ rest := by
      rw [heq]
      rfl
    rw [hback, natDecode_encode t.toNat rest hrest]
    have htn : ((t.toNat : Nat) : Int) = t := Int.toNat_of_nonneg (Int.not_lt.mp hneg)
    simp [htn]

theorem psb_quote (R : List Char) : parseStringBody ('"' :: R) = some ([], R) := by
  rw [parseStringBody.eq_def]
  simp

theorem psb_plain (c : Char) (R : List Char) (hq : c ≠ '"') (hb : c ≠ '\\') :
    parseStringBody (c :: R) = (parseStringBody R).map (fun p => (c :: p.1, p.2)) := by
  rw [parseStringBody.eq_def]
  simp [hq, hb]

theorem psb_short (e c2 : Char) (R : List Char) (hu : e ≠ 'u') (he : unescapeChar e = some c2) :
    parseStringBody ('\\' :: e :: R) = (parseStringBody R).map (fun p => (c2 :: p.1, p.2)) := by
  rw [parseStringBody.eq_def]
  simp [hu, he]

theorem psb_hex (a b c2 d : Char) (R : List Char) (x y z w : Nat)
    (ha : hexVal a = some x) (hb : hexVal b = some y)
    (hc : hexVal c2 = some z) (hd : hexVal d = some w) :
    parseStringBody ('\\' :: 'u' :: a :: b :: c2 :: d :: R)
      = (parseStringBody R).map
          (fun p => (Char.ofNat (((x * 16 + y) * 16 + z) * 16 + w) :: p.1, p.2)) := by
  rw [parseStringBody.eq_def]
  simp [ha, hb, hc, hd]

theorem parseStringBody_escape (s : List Char) (rest : List Char) :
    parseStringBody (escapeString s ++ '"' :: rest) = some (s, rest) := by
  induction s with
  | nil => simpa using psb_quote rest
  | cons c s ih =>
    have hstep : escapeString (c :: s) ++ '"' :: rest
        = escapeChar c ++ (escapeString s ++ '"' :: rest) := by
      show (escapeChar c ++ escapeString s) ++ '"' :: rest = _
      rw [List.append_assoc]
    rw [hstep]
    set R := escapeString s ++ '"' :: rest with hR
    by_cases h1 : c = '"'
    · subst h1
      show parseStringBody ('\\' :: '"' :: R) = some ('"' :: s, rest)
      rw [psb_short '"' '"' R (by decide) (by decide), ih]
      rfl
    · by_cases h2 : c = '\\'
      · subst h2
        show parseStringBody ('\\' :: '\\' :: R) = some ('\\' :: s, rest)
        rw [psb_short '\\' '\\' R (by decide) (by decide), ih]
        rfl
      · by_cases h3 : c = '\x08'
        · subst h3
          show parseStringBody ('\\' :: 'b' :: R) = some ('\x08' :: s, rest)
          rw [psb_short 'b' '\x08' R (by decide) (by decide), ih]
          rfl
        · by_cases h4 : c = '\t'
          · subst h4
            show parseStringBody ('\\' :: 't' :: R) = some ('\t' :: s, rest)
            rw [psb_short 't' '\t' R (by decide) (by decide), ih]
            rfl
          · by_cases h5 : c = '\n'
            · subst h5
              show parseStringBody ('\\' :: 'n' :: R) = some ('\n' :: s, rest)
              rw [psb_short 'n' '\n' R (by decide) (by decide), ih]
              rfl
            · by_cases h6 : c = '\x0c'
              · subst h6
                show parseStringBody ('\\' :: 'f' :: R) = some ('\x0c' :: s, rest)
                rw [psb_short 'f' '\x0c' R (by decide) (by decide), ih]
                rfl
              · by_cases h7 : c = '\r'
                · subst h7
                  show parseStringBody ('\\' :: 'r' :: R) = some ('\r' :: s, rest)
                  rw [psb_short 'r' '\r' R (by decide) (by decide), ih]
                  rfl
                · by_cases h8 : c.toNat < 32
                  · have henc : escapeChar c
                        = '\\' :: 'u' :: '0' :: '0' :: hexDigitChar (c.toNat / 16)
                          :: [hexDigitChar (c.toNat % 16)] := by
                      simp only [escapeChar, if_neg h1, if_neg h2, if_neg h3, if_neg h4,
                        if_neg h5, if_neg h6, if_neg h7, if_pos h8]
                    rw [henc]
                    have hdiv : c.toNat / 16 < 16 := by omega
                    have hmod : c.toNat % 16 < 16 := Nat.mod_lt _ (by omega)
                    show parseStringBody ('\\' :: 'u' :: '0' :: '0'
                        :: hexDigitChar (c.toNat / 16) :: hexDigitChar (c.toNat % 16) :: R)
                      = some (c :: s, rest)
                    rw [psb_hex '0' '0' (hexDigitChar (c.toNat / 16)) (hexDigitChar (c.toNat % 16))
                      R 0 0 (c.toNat / 16) (c.toNat % 16) (by decide) (by decide)
                      (hexVal_hexDigitChar _ hdiv) (hexVal_hexDigitChar _ hmod), ih]
                    have hval : ((0 * 16 + 0) * 16 + c.toNat / 16) * 16 + c.toNat % 16
                        = c.toNat := by omega
                    rw [hval, Char.ofNat_toNat]
                    rfl
                  · have henc : escapeChar c = [c] := by
                      simp only [escapeChar, if_neg h1, if_neg h2, if_neg h3, if_neg h4,
                        if_neg h5, if_neg h6, if_neg h7, if_neg h8]
                    rw [henc]
                    show parseStringBody (c :: R) = some (c :: s, rest)
                    rw [psb_plain c R h1 h2, ih]
                    rfl

theorem headNotDigit_comma (tl X : List Char) : headNotDigit ((',' :: tl) ++ X) := by
  intro c hc
  have hc2 : some ',' = some c := by simpa using hc
  have : c = ',' := (Option.some_inj.mp hc2).symm
  subst this
  decide

theorem parseEntry_encodeEntry (e : HistoryEntry) : parseEntry (encodeEntry e) = some e := by
  obtain ⟨t, p, c⟩ := e
  have htok3 : (("\",\"command\":\"").data) = '"' :: ((",\"command\":\"").data) := by decide
  have htok4 : (("\"\x7d").data) = '"' :: [('\x7d' : Char)] := by decide
  have hassoc : encodeEntry ⟨t, p, c⟩
      = (("\x7b\"timestamp\":").data)
        ++ (intEncode t
        ++ (((",\"prompt\":\"").data)
        ++ (escapeString p.data
        ++ ('"' :: (((",\"command\":\"").data)
        ++ (escapeString c.data
        ++ ('"' :: [('\x7d' : Char)]))))))) := by
    show (("\x7b\"timestamp\":").data) ++ intEncode t
        ++ ((",\"prompt\":\"").data) ++ escapeString p.data
        ++ (("\",\"command\":\"").data) ++ escapeString c.data
        ++ (("\"\x7d").data) = _
    rw [htok3, htok4]
    simp only [List.append_assoc, List.cons_append]
  rw [hassoc]
  unfold parseEntry
  rw [parseExact_append]
  simp only [Option.some_bind]
  rw [parseInt_encode t _ (headNotDigit_comma _ _)]
  simp only [Option.some_bind]
  rw [parseExact_append]
  simp only [Option.some_bind]
  rw [parseStringBody_escape]
  simp only [Option.some_bind]
  rw [parseExact_append]
  simp only [Option.some_bind]
  rw [parseStringBody_escape]
  simp only [Option.some_bind]
  rw [if_pos (by decide)]

theorem append_to_history_eq (ts : Int) (p c : String) (L : List (List Char)) :
    append_to_history ts p c L
      = if (L ++ [encodeEntry (mkEntry ts p c)]).length > 1000
        then (L ++ [encodeEntry (mkEntry ts p c)]).drop
          ((L ++ [encodeEntry (mkEntry ts p c)]).length - 1000)
        else L ++ [encodeEntry (mkEntry ts p c)] := rfl

/-- C5: history append is capacity-bounded.  Appending to a log of exactly
1000 lines yields exactly the old log minus its single oldest line, plus the
new line at the end; and after any append the log holds at most 1000 lines,
ends with the new line, and is a suffix of the old log plus the new line
(oldest-first eviction). -/
theorem history_append_capacity :
    (∀ (ts : Int) (p c : String) (L : List (List Char)), L.length = 1000 →
      append_to_history ts p c L = L.tail ++ [encodeEntry (mkEntry ts p c)])
  ∧ (∀ (ts : Int) (p c : String) (L : List (List Char)),
      (append_to_history ts p c L).length ≤ 1000 ∧
      (append_to_history ts p c L).getLast? = some (encodeEntry (mkEntry ts p c)) ∧
      ∃ k, append_to_history ts p c L = (L ++ [encodeEntry (mkEntry ts p c)]).drop k) := by
  constructor
  · intro ts p c L hL
    rw [append_to_history_eq]
    have hlen : (L ++ [encodeEntry (mkEntry ts p c)]).length = 1001 := by
      rw [List.length_append, hL]
      rfl
    rw [if_pos (by omega), hlen]
    have h1 : (1001 : Nat) - 1000 = 1 := by omega
    rw [h1, List.drop_append_of_le_length (by omega), List.drop_one]
  · intro ts p c L
    rw [append_to_history_eq]
    have hlen : (L ++ [encodeEntry (mkEntry ts p c)]).length = L.length + 1 := by
      rw [List.length_append]
      rfl
    by_cases hgt : (L ++ [encodeEntry (mkEntry ts p c)]).length > 1000
    · rw [if_pos hgt]
      refine ⟨?_, ?_, ⟨(L ++ [encodeEntry (mkEntry ts p c)]).length - 1000, rfl⟩⟩
      · rw [List.length_drop]
        omega
      · have hk : (L ++ [encodeEntry (mkEntry ts p c)]).length - 1000 ≤ L.length := by
          omega
        rw [List.drop_append_of_le_length hk, List.getLast?_concat]
    · rw [if_neg hgt]
      exact ⟨by omega, List.getLast?_concat L, ⟨0, (List.drop_zero _).symm⟩⟩

/-- Witness for C5: appending to a log of exactly 1000 single-character lines
drops the oldest line and keeps the count at 1000. -/
theorem history_append_capacity_witness :
    (List.replicate 1000 ([('x' : Char)])).length = 1000 ∧
      append_to_history 0 ("a") ("b") (List.replicate 1000 ([('x' : Char)]))
        = (List.replicate 1000 ([('x' : Char)])).tail
          ++ [encodeEntry (mkEntry 0 ("a") ("b"))] := by
  refine ⟨List.length_replicate 1000 _, ?_⟩
  exact history_append_capacity.1 0 ("a") ("b") (List.replicate 1000 ([('x' : Char)]))
    (List.length_replicate 1000 _)

theorem parseHistoryLines_concat (L : List (List Char)) (e : HistoryEntry) :
    parseHistoryLines (L ++ [encodeEntry e]) = parseHistoryLines L ++ [e] := by
  unfold parseHistoryLines
  rw [List.filterMap_append]
  simp [parseEntry_encodeEntry]

theorem append_to_history_drop (ts : Int) (p c : String) (L : List (List Char)) :
    append_to_history ts p c L
      = (L.drop (L.length + 1 - 1000)) ++ [encodeEntry (mkEntry ts p c)] := by
  rw [append_to_history_eq]
  have hlen : (L ++ [encodeEntry (mkEntry ts p c)]).length = L.length + 1 := by
    rw [List.length_append]
    rfl
  by_cases hgt : (L ++ [encodeEntry (mkEntry ts p c)]).length > 1000
  · rw [if_pos hgt, hlen]
    exact List.drop_append_of_le_length (by omega)
  · rw [if_neg hgt]
    have h0 : L.length + 1 - 1000 = 0 := by omega
    rw [h0, List.drop_zero]

/-- C6: history round-trip.  An entry written by `append_to_history` and read
back by the `show_history` parser yields prompt and command exactly equal to
the sanitized inputs (ANSI escapes stripped, then trimmed), and across two
consecutive appends whose clock reads are non-decreasing (real time), the two
stored entries appear in order with non-decreasing timestamps. -/
theorem history_round_trip (ts1 ts2 : Int) (p1 c1 p2 c2 : String) (L : List (List Char))
    (hts : ts1 ≤ ts2) :
    (parseHistoryLines (append_to_history ts1 p1 c1 L)).getLast?
        = some (mkEntry ts1 p1 c1) ∧
    (mkEntry ts1 p1 c1).prompt = trimStr (strip_ansi_codes p1) ∧
    (mkEntry ts1 p1 c1).command = trimStr (strip_ansi_codes c1) ∧
    ∃ es, parseHistoryLines (append_to_history ts2 p2 c2 (append_to_history ts1 p1 c1 L))
        = es ++ [mkEntry ts1 p1 c1, mkEntry ts2 p2 c2]
      ∧ (mkEntry ts1 p1 c1).timestamp ≤ (mkEntry ts2 p2 c2).timestamp := by
  refine ⟨?_, rfl, rfl, ?_⟩
  · rw [append_to_history_drop, parseHistoryLines_concat, List.getLast?_concat]
  · set D1 := L.drop (L.length + 1 - 1000) with hD1
    have h1 : append_to_history ts1 p1 c1 L = D1 ++ [encodeEntry (mkEntry ts1 p1 c1)] :=
      append_to_history_drop ts1 p1 c1 L
    have hlen1 : (D1 ++ [encodeEntry (mkEntry ts1 p1 c1)]).length = D1.length + 1 := by
      rw [List.length_append]
      rfl
    have h2 : append_to_history ts2 p2 c2 (append_to_history ts1 p1 c1 L)
        = ((D1 ++ [encodeEntry (mkEntry ts1 p1 c1)]).drop
            ((D1 ++ [encodeEntry (mkEntry ts1 p1 c1)]).length + 1 - 1000))
          ++ [encodeEntry (mkEntry ts2 p2 c2)] := by
      rw [h1]
      exact append_to_history_drop ts2 p2 c2 _
    have hb : (D1 ++ [encodeEntry (mkEntry ts1 p1 c1)]).length + 1 - 1000 ≤ D1.length := by
      rw [hlen1]
      omega
    rw [h2, List.drop_append_of_le_length hb]
    refine ⟨parseHistoryLines
        (D1.drop ((D1 ++ [encodeEntry (mkEntry ts1 p1 c1)]).length + 1 - 1000)), ?_, hts⟩
    rw [parseHistoryLines_concat, parseHistoryLines_concat, List.append_assoc]
    rfl

/-- Witness for C6 at timestamps 0 ≤ 1 on an empty log. -/
theorem history_round_trip_witness :
    (0 : Int) ≤ 1 ∧
    ((parseHistoryLines (append_to_history 0 ("list files") ("ls") [])).getLast?
        = some (mkEntry 0 ("list files") ("ls")) ∧
      (mkEntry 0 ("list files") ("ls")).prompt = trimStr (strip_ansi_codes ("list files")) ∧
      (mkEntry 0 ("list files") ("ls")).command = trimStr (strip_ansi_codes ("ls")) ∧
      ∃ es, parseHistoryLines
          (append_to_history 1 ("show ip") ("curl -s ifconfig.me")
            (append_to_history 0 ("list files") ("ls") []))
          = es ++ [mkEntry 0 ("list files") ("ls"), mkEntry 1 ("show ip") ("curl -s ifconfig.me")]
        ∧ (mkEntry 0 ("list files") ("ls")).timestamp
            ≤ (mkEntry 1 ("show ip") ("curl -s ifconfig.me")).timestamp) :=
  ⟨by decide,
    history_round_trip 0 1 ("list files") ("ls") ("show ip") ("curl -s ifconfig.me") []
      (by decide)⟩

/-- C7: the conversational window holds at most 3 entries at every point
(pushing preserves the bound), eviction is oldest-first (the result is a
suffix of the old window plus the new entry), after a 4th commit starting
from an empty window exactly the last three pushed entries remain, and the
prompt composed for a subsequent request is built from those three entries
only — the 1st committed entry is gone. -/
theorem conversation_window_spec :
    (∀ (w : List String) (e : String), w.length ≤ 3 → (pushWindow w e).length ≤ 3)
  ∧ (∀ (w : List String) (e : String), ∃ k, pushWindow w e = (w ++ [e]).drop k)
  ∧ (∀ e1 e2 e3 e4 : String,
      pushWindow (pushWindow (pushWindow (pushWindow [] e1) e2) e3) e4 = [e2, e3, e4])
  ∧ (∀ e1 e2 e3 e4 input : String, e1 ≠ e2 → e1 ≠ e3 → e1 ≠ e4 →
      e1 ∉ pushWindow (pushWindow (pushWindow (pushWindow [] e1) e2) e3) e4 ∧
      composePrompt (pushWindow (pushWindow (pushWindow (pushWindow [] e1) e2) e3) e4) input
        = composePrompt [e2, e3, e4] input) := by
  refine ⟨?_, ?_, ?_, ?_⟩
  · intro w e hw
    unfold pushWindow
    have hlen : (w ++ [e]).length = w.length + 1 := by
      rw [List.length_append]
      rfl
    by_cases hgt : (w ++ [e]).length > 3
    · rw [if_pos hgt, List.length_tail]
      omega
    · rw [if_neg hgt]
      omega
  · intro w e
    unfold pushWindow
    by_cases hgt : (w ++ [e]).length > 3
    · rw [if_pos hgt]
      exact ⟨1, (List.drop_one _).symm⟩
    · rw [if_neg hgt]
      exact ⟨0, (List.drop_zero _).symm⟩
  · intro e1 e2 e3 e4
    rfl
  · intro e1 e2 e3 e4 input h2 h3 h4
    have hw : pushWindow (pushWindow (pushWindow (pushWindow [] e1) e2) e3) e4
        = [e2, e3, e4] := rfl
    rw [hw]
    exact ⟨by simp [h2, h3, h4], rfl⟩

/-- Witness for C7 with four distinct window entries. -/
theorem conversation_window_spec_witness :
    (("a") : String) ≠ ("b") ∧ (("a") : String) ≠ ("c") ∧ (("a") : String) ≠ ("d") ∧
    (("a") ∉ pushWindow (pushWindow (pushWindow (pushWindow [] ("a")) ("b")) ("c")) ("d") ∧
      composePrompt (pushWindow (pushWindow (pushWindow (pushWindow [] ("a")) ("b")) ("c")) ("d"))
          ("next")
        = composePrompt [("b"), ("c"), ("d")] ("next")) ∧
    (List.length ([("x")] : List String) ≤ 3 ∧
      (pushWindow [("x")] ("y")).length ≤ 3) := by
  refine ⟨by decide, by decide, by decide, ?_, by decide, ?_⟩
  · exact conversation_window_spec.2.2.2 ("a") ("b") ("c") ("d") ("next")
      (by decide) (by decide) (by decide)
  · exact conversation_window_spec.1 [("x")] ("y") (by decide)

/-- C9: turn atomicity on provider error.  A turn whose provider call fails
leaves the session state (history lines and conversational window) unchanged,
and a whole session run with an errored turn spliced in anywhere produces
exactly the state of the run without it — nothing is written and nothing is
pushed for an errored turn. -/
theorem provider_error_atomicity :
    (∀ (s : SessionState) (input : String) (edits : List (String × Option String)) (ts : Int),
      sessionStep s (TurnEvent.turn input none edits ts) = s)
  ∧ (∀ (init : SessionState) (evs1 evs2 : List TurnEvent) (input : String)
      (edits : List (String × Option String)) (ts : Int),
      runSession init (evs1 ++ TurnEvent.turn input none edits ts :: evs2)
        = runSession init (evs1 ++ evs2)) := by
  constructor
  · intro s input edits ts
    rfl
  · intro init evs1 evs2 input edits ts
    unfold runSession
    rw [List.foldl_append, List.foldl_append, List.foldl_cons]
    rfl

/-- C1 amended: when a turn reaches Committed, the history line was already
written at generation time (main.rs:808-811), before the confirm/edit loop:
the pair appended to the History Store is `(input, generatedCommand)` — the
fence-cleaned model output — independent of any edits, while the pair pushed
onto the conversational window does record the edited final command.  (The
claim as stated — that the history entry records the final command after
edits — is refuted by the counterexample theorem.) -/
theorem committed_turn_records (h : List (List Char)) (w : List String) (ts : Int)
    (input modelRaw : String) (edits : List (String × Option String)) :
    (turnCommit h w ts input modelRaw edits).history
        = append_to_history ts input (cleanCommand modelRaw) h ∧
    (turnCommit h w ts input modelRaw edits).history
        = (turnCommit h w ts input modelRaw []).history ∧
    (parseHistoryLines (turnCommit h w ts input modelRaw edits).history).getLast?
        = some (mkEntry ts input (cleanCommand modelRaw)) ∧
    (turnCommit h w ts input modelRaw edits).window
        = pushWindow w (renderPair input (turnCommit h w ts input modelRaw edits).finalCommand) := by
  refine ⟨rfl, rfl, ?_, rfl⟩
  show (parseHistoryLines (append_to_history ts input (cleanCommand modelRaw) h)).getLast? = _
  rw [append_to_history_drop, parseHistoryLines_concat, List.getLast?_concat]

/-- Counterexample to C1 as stated: a turn whose command is generated as `ls`
and then edited to `find . -size +1G` before confirming commits a history
line recording `ls`, the originally generated command — not the edited final
command, which only reaches the conversational window. -/
theorem committed_turn_records_cex :
    (turnCommit [] [] 0 ("show files") ("ls") [(("find . -size +1G"), none)]).finalCommand
        = ("find . -size +1G") ∧
    (turnCommit [] [] 0 ("show files") ("ls") [(("find . -size +1G"), none)]).history
        = [encodeEntry (mkEntry 0 ("show files") ("ls"))] ∧
    (turnCommit [] [] 0 ("show files") ("ls") [(("find . -size +1G"), none)]).history
        ≠ [encodeEntry (mkEntry 0 ("show files") ("find . -size +1G"))] ∧
    (turnCommit [] [] 0 ("show files") ("ls") [(("find . -size +1G"), none)]).window
        = [renderPair ("show files") ("find . -size +1G")] := by
  refine ⟨by decide, by decide, by decide, by decide⟩

/-- C2 (spec-modelled, the Context Harvester is absent from src/): `harvest`
returns the immediate entries of the working directory with dotfiles
excluded, sorted lexicographically, capped at 50 names with a
`...(truncated)` marker when exceeded; the environment opt-out makes it
return the empty string; and the harvested context is appended to the system
prompt only — never the user prompt — and only when non-empty. -/
theorem context_harvester_spec :
    (∀ entries : List String, harvest true entries = (""))
  ∧ (∀ entries : List String,
      List.Sorted (fun a b : String => a ≤ b)
          (sortStrings (entries.filter (fun e => !(isDotfile e)))) ∧
      List.Perm (sortStrings (entries.filter (fun e => !(isDotfile e))))
          (entries.filter (fun e => !(isDotfile e))) ∧
      ((entries.filter (fun e => !(isDotfile e))).length ≤ 50 →
        harvest false entries
          = String.intercalate ("\n")
              (sortStrings (entries.filter (fun e => !(isDotfile e))))) ∧
      ((entries.filter (fun e => !(isDotfile e))).length > 50 →
        harvest false entries
          = String.intercalate ("\n")
              ((sortStrings (entries.filter (fun e => !(isDotfile e)))).take 50
                ++ [truncatedMarker])))
  ∧ (∀ sys usr ctx : String,
      (enrichPrompts sys usr ctx).2 = usr ∧
      (ctx = ("") → enrichPrompts sys usr ctx = (sys, usr)) ∧
      (ctx ≠ ("") → (enrichPrompts sys usr ctx).1 = sys ++ ("\n") ++ ctx)) := by
  refine ⟨fun entries => rfl, ?_, ?_⟩
  · intro entries
    have hperm : List.Perm (sortStrings (entries.filter (fun e => !(isDotfile e))))
        (entries.filter (fun e => !(isDotfile e))) :=
      List.perm_insertionSort _ _
    have hlen : (sortStrings (entries.filter (fun e => !(isDotfile e)))).length
        = (entries.filter (fun e => !(isDotfile e))).length := hperm.length_eq
    refine ⟨List.sorted_insertionSort _ _, hperm, ?_, ?_⟩
    · intro h50
      show String.intercalate ("\n") (harvestNames entries) = _
      unfold harvestNames
      rw [if_neg (by rw [hlen]; omega)]
    · intro h50
      show String.intercalate ("\n") (harvestNames entries) = _
      unfold harvestNames
      rw [if_pos (by rw [hlen]; omega)]
  · intro sys usr ctx
    refine ⟨?_, ?_, ?_⟩
    · unfold enrichPrompts
      by_cases h : ctx = ("")
      · rw [if_pos h]
      · rw [if_neg h]
    · intro h
      unfold enrichPrompts
      rw [if_pos h]
    · intro h
      unfold enrichPrompts
      rw [if_neg h]

/-- Witness for C2: three entries, one a dotfile; the opt-out returns the
empty string and the enabled harvester lists the sorted visible names. -/
theorem context_harvester_spec_witness :
    (([("b"), ("a"), (".hidden")].filter (fun e => !(isDotfile e))).length ≤ 50 ∧
      harvest false [("b"), ("a"), (".hidden")]
        = String.intercalate ("\n")
            (sortStrings ([("b"), ("a"), (".hidden")].filter (fun e => !(isDotfile e))))) ∧
    harvest true [("b"), ("a"), (".hidden")] = ("") ∧
    (("ctx") : String) ≠ ("") ∧
    (enrichPrompts ("sys") ("usr") ("ctx")).1 = ("sys") ++ ("\n") ++ ("ctx") := by
  refine ⟨⟨by decide, ?_⟩, ?_, by decide, ?_⟩
  · exact (context_harvester_spec.2.1 [("b"), ("a"), (".hidden")]).2.2.1 (by decide)
  · exact context_harvester_spec.1 [("b"), ("a"), (".hidden")]
  · exact (context_harvester_spec.2.2 ("sys") ("usr") ("ctx")).2.2 (by decide)

/-- Witness for C8: both example inputs evaluated through the classifier. -/
theorem edit_classification_spec_witness :
    looks_like_command ("find . -size +1G") = true
      ∧ looks_like_command ("only show top 10") = false := by
  constructor
  · exact (edit_classification_spec.1 (("find . -size +1G"))).mpr
      (Or.inr (Or.inr (Or.inr (Or.inl (by decide)))))
  · decide
